import Mathlib

/-!
Verification of the analytics and language-understanding core of the
smartSpend personal-finance assistant (backend/app/nlp.py and
backend/app/crud.py) against its natural-language specification.

Monetary values are modelled as rationals (`ℚ`); Python's `round(x, 2)`
becomes `round2` below.  External capabilities (the optional spaCy
named-entity model, the optional trained category classifier, the
`dateutil` parser, and the statsmodels ARIMA fitter) are modelled as
oracle parameters, exactly as the spec prescribes ("optional ML models as
injected capabilities"); every deterministic fallback path (regexes,
keyword tables, statistics) is embedded concretely from the source.
-/

/-- Computable embedding of Python's `round(x, 2)` on rationals: round
`100 * q` to the nearest integer and divide by `100`.  `Rat.floor` is used
so that the definition evaluates by kernel reduction; the bridge lemma
`round2_eq_round` identifies it with Mathlib's `round`. -/
def round2 (q : ℚ) : ℚ := ((Rat.floor (q * 100 + 1 / 2) : ℤ) : ℚ) / 100

/-!
Association lists model Python dictionaries (insertion-ordered maps).
`alookup` is `d.get(k)`, `aget` is `d.get(k, 0.0)`, `setKey` is
`d[k] = v` (replace in place when the key is present, append otherwise).
-/

def alookup {α : Type} [DecidableEq α] : List (α × ℚ) → α → Option ℚ
  | [], _ => none
  | p :: t, k => if p.1 = k then some p.2 else alookup t k

def aget {α : Type} [DecidableEq α] (m : List (α × ℚ)) (k : α) : ℚ :=
  (alookup m k).getD 0

def keysOf {α : Type} (m : List (α × ℚ)) : List α := m.map Prod.fst

def setKey {α : Type} [DecidableEq α] (m : List (α × ℚ)) (k : α) (v : ℚ) : List (α × ℚ) :=
  if (alookup m k).isSome then m.map (fun p => if p.1 = k then (k, v) else p)
  else m ++ [(k, v)]

/-!
Embedding of `optimize_budgets` (backend/app/crud.py, lines 349-423).
`budgets` maps a category to its monthly limit, `totals` maps a category
to its current-month spend (`totals.get(cat, 0.0)` is `aget`).  The two
mutation loops over the `surplus` and `overs` dictionaries are the two
`applyAdjust` folds.  The presentational `summary` strings of the Python
return dictionaries carry no data beyond the other fields and are not
modelled.
-/

/-- Embedding of the loop body branch `spent > limit`:
`overs[cat] = round(spent - limit, 2)`. -/
def oversEntry (limit spent : ℚ) : Option ℚ :=
  if limit < spent then some (round2 (spent - limit)) else none

/-- Embedding of the loop body `else` branch:
`available = max(0.0, limit - spent)`, `max_reducible = round(limit * max_reduction_pct, 2)`,
`available_to_reallocate = round(min(available, max_reducible), 2)`, recorded if positive. -/
def surplusEntry (pct limit spent : ℚ) : Option ℚ :=
  if limit < spent then none
  else
    let available := max 0 (limit - spent)
    let maxReducible := round2 (limit * pct)
    let availableToReallocate := round2 (min available maxReducible)
    if 0 < availableToReallocate then some availableToReallocate else none

/-- The `overs` dictionary built by the first loop of `optimize_budgets`. -/
def oversOf (budgets totals : List (String × ℚ)) : List (String × ℚ) :=
  budgets.filterMap (fun p => (oversEntry p.2 (aget totals p.1)).map (fun v => (p.1, v)))

/-- The `surplus` dictionary built by the first loop of `optimize_budgets`. -/
def surplusOf (pct : ℚ) (budgets totals : List (String × ℚ)) : List (String × ℚ) :=
  budgets.filterMap (fun p => (surplusEntry pct p.2 (aget totals p.1)).map (fun v => (p.1, v)))

/-- Sum of the values of a dictionary (`sum(d.values())`). -/
def sumVals (m : List (String × ℚ)) : ℚ := (m.map Prod.snd).sum

/-- A mutation loop over `L` updating the `sug` dictionary in place:
for each `(cat, x)` in `L`, `sug[cat] = g(sug[cat], x)`. -/
def applyAdjust (g : ℚ → ℚ → ℚ) (sug L : List (String × ℚ)) : List (String × ℚ) :=
  L.foldl (fun acc p => setKey acc p.1 (g (aget acc p.1) p.2)) sug

/-- The `suggested` dictionary of the redistribution branch: start from a
copy of `budgets`, subtract `round(avail * ratio, 2)` (re-rounding the
result) for every surplus category, then add `round(over * ratio, 2)`
(re-rounding) for every overspent category, with
`ratio = min(1.0, total_surplus / total_overspent)`. -/
def suggestedOf (pct : ℚ) (budgets totals : List (String × ℚ)) : List (String × ℚ) :=
  let o := oversOf budgets totals
  let s := surplusOf pct budgets totals
  let ratio := min 1 (sumVals s / sumVals o)
  applyAdjust (fun cur over => round2 (cur + round2 (over * ratio)))
    (applyAdjust (fun cur avail => round2 (cur - round2 (avail * ratio))) budgets s) o

/-- The four return shapes of `optimize_budgets`: the `"error": "No budgets
found"` dictionary, the balanced summary, the increase-your-budget summary,
and the redistribution result. -/
inductive OptimizeResult where
  | noBudgets : OptimizeResult
  | balanced (originalBudgets currentSpending : List (String × ℚ)) : OptimizeResult
  | increaseBudget (originalBudgets currentSpending overspending : List (String × ℚ))
      (totalOverspent : ℚ) : OptimizeResult
  | redistribute (originalBudgets currentSpending overspending availableSurplus
      suggestedBudgets : List (String × ℚ)) : OptimizeResult
deriving DecidableEq

/-- Embedding of `optimize_budgets(db, user_id, max_reduction_pct)` after the
two reads `budgets = get_user_budgets(...)` and `totals = get_monthly_totals(...)`:
the maps are passed in directly, as the spec's `optimize(budgets, spent, maxReductionPct)`. -/
def optimize_budgets (budgets totals : List (String × ℚ)) (pct : ℚ) : OptimizeResult :=
  if budgets = [] then .noBudgets
  else
    let o := oversOf budgets totals
    let s := surplusOf pct budgets totals
    if sumVals o = 0 then .balanced budgets totals
    else if sumVals s = 0 then .increaseBudget budgets totals o (sumVals o)
    else .redistribute budgets totals o s (suggestedOf pct budgets totals)

/-- The `original_budgets` field of each result dictionary. -/
def OptimizeResult.origBudgets : OptimizeResult → Option (List (String × ℚ))
  | .noBudgets => none
  | .balanced b _ => some b
  | .increaseBudget b _ _ _ => some b
  | .redistribute b _ _ _ _ => some b

/-- The `current_spending` field of each result dictionary. -/
def OptimizeResult.curSpending : OptimizeResult → Option (List (String × ℚ))
  | .noBudgets => none
  | .balanced _ t => some t
  | .increaseBudget _ t _ _ => some t
  | .redistribute _ t _ _ _ => some t

/-!
Embedding of the text-understanding components (backend/app/nlp.py).
Strings are processed as ASCII character lists; the spaCy pipeline is an
oracle producing a labelled entity stream for a text, the `dateutil`
parser is an oracle from an entity text and a default date to an optional
parsed date (`none` models a raised exception), and datetimes are modelled
at day resolution as days since 1970-01-01 with a concrete proleptic
Gregorian `yearOfDay`.
-/

/-- Entity labels of the spaCy model that the source inspects. -/
inductive EntLabel where
  | money : EntLabel
  | date : EntLabel
  | org : EntLabel
  | person : EntLabel
  | other : EntLabel
deriving DecidableEq

/-- The injected environment of nlp.py: the module-level `nlp_spacy` and
`category_model` handles (both optional), the `dateutil.parser.parse`
capability, and the current time `datetime.utcnow()` at day resolution. -/
structure Env where
  spacy : Option (String → List (EntLabel × String))
  categoryModel : Option (String → Option String)
  dateutil : String → Int → Option Int
  now : Int

/-- ASCII lower-casing of one character, as `str.lower()` acts on ASCII. -/
def pyLowerChar (c : Char) : Char :=
  if 65 ≤ c.toNat ∧ c.toNat ≤ 90 then Char.ofNat (c.toNat + 32) else c

/-- Embedding of `text.lower()` for ASCII text. -/
def pyLower (s : String) : String := ⟨s.data.map pyLowerChar⟩

/-- Whitespace characters recognised by `str.strip()`. -/
def isSpaceChar (c : Char) : Bool :=
  c == Char.ofNat 32 || c == Char.ofNat 9 || c == Char.ofNat 10 ||
  c == Char.ofNat 13 || c == Char.ofNat 11 || c == Char.ofNat 12

/-- Embedding of `str.strip()`: drop whitespace from both ends. -/
def pyStrip (l : List Char) : List Char :=
  ((l.dropWhile isSpaceChar).reverse.dropWhile isSpaceChar).reverse

/-- Boolean test that `l` starts with the pattern `sub`. -/
def leadsWith : List Char → List Char → Bool
  | [], _ => true
  | _ :: _, [] => false
  | a :: as, b :: bs => a == b && leadsWith as bs

/-- Embedding of Python's substring containment `sub in l`. -/
def containsSub (sub : List Char) : List Char → Bool
  | [] => sub.isEmpty
  | c :: t => leadsWith sub (c :: t) || containsSub sub t

/-- Embedding of `re.sub(r'[^\d.]', '', ent.text)`: keep digits and dots. -/
def stripNonNumeric (l : List Char) : List Char :=
  l.filter (fun c => c.isDigit || c == '.')

/-- Decimal value of a digit string. -/
def digitsToNat (l : List Char) : ℕ :=
  l.foldl (fun acc c => 10 * acc + (c.toNat - 48)) 0

/-- Embedding of Python's `float(s)` on the digit-and-dot strings that the
amount paths produce: at most one dot and at least one digit, else a
`ValueError` (`none`). -/
def pyFloat (l : List Char) : Option ℚ :=
  if l.all (fun c => c.isDigit || c == '.') then
    match l.splitOn '.' with
    | [intPart] => if intPart.isEmpty then none else some (digitsToNat intPart)
    | [intPart, fracPart] =>
        if intPart.isEmpty && fracPart.isEmpty then none
        else some ((digitsToNat intPart : ℚ) +
          (digitsToNat fracPart : ℚ) / (10 : ℚ) ^ fracPart.length)
    | _ => none
  else none

/-- The loop over spaCy entities in `extract_amount`: the first MONEY
entity whose stripped text parses as a float wins; parse failures
`continue`. -/
def firstMoneyVal : List (EntLabel × String) → Option ℚ
  | [] => none
  | (lab, txt) :: rest =>
    if lab = EntLabel.money then
      match pyFloat (stripNonNumeric txt.data) with
      | some v => some v
      | none => firstMoneyVal rest
    else firstMoneyVal rest

/-- Matching of the number pattern `\d[\d,]*\.?\d*` anchored at the head of
`l`: one digit, a greedy run of digits and commas, an optional dot, then a
greedy run of digits. -/
def matchNumberAt (l : List Char) : Option (List Char) :=
  match l with
  | [] => none
  | c :: rest =>
    if c.isDigit then
      let p1 := rest.takeWhile (fun d => d.isDigit || d == ',')
      let r1 := rest.drop p1.length
      match r1 with
      | '.' :: r2 => some (c :: p1 ++ '.' :: r2.takeWhile Char.isDigit)
      | _ => some (c :: p1)
    else none

/-- Embedding of `re.search(r"(\d[\d,]*\.?\d*)", text)`: leftmost match. -/
def searchNumber : List Char → Option (List Char)
  | [] => none
  | c :: rest =>
    match matchNumberAt (c :: rest) with
    | some m => some m
    | none => searchNumber rest

/-- Embedding of `extract_amount` (nlp.py lines 92-109): empty text is not
an expense; a spaCy MONEY entity that parses wins; otherwise the first
regex number match, commas removed, parsed as a float. -/
def extract_amount (spacy : Option (String → List (EntLabel × String)))
    (text : String) : Option ℚ :=
  if text = "" then none
  else
    match (match spacy with
           | some ents => firstMoneyVal (ents text)
           | none => none) with
    | some v => some v
    | none =>
      match searchNumber text.data with
      | some m => pyFloat (m.filter (fun c => !(c == ',')))
      | none => none

/-- The keyword table of `classify_category`, in source order. -/
def foodWords : List String :=
  ["food", "lunch", "coffee", "restaurant", "grocer", "meal", "swiggy", "zomato"]

def transportWords : List String :=
  ["bus", "taxi", "uber", "transport", "metro", "train", "ola"]

def shoppingWords : List String :=
  ["shopping", "clothes", "mall", "store", "amazon", "flipkart", "myntra"]

def billsWords : List String :=
  ["bill", "electricity", "water", "internet", "rent", "phone"]

def entertainmentWords : List String :=
  ["movie", "cinema", "game", "entertainment", "netflix"]

/-- Embedding of `any(word in t for word in ws)`. -/
def anyWord (t : List Char) (ws : List String) : Bool :=
  ws.any (fun w => containsSub w.data t)

/-- The keyword fallback of `classify_category`: the groups are tested in
the fixed source order Food, Transport, Shopping, Bills, Entertainment
against the lower-cased text, first match wins, default "Other". -/
def keywordClassify (text : String) : String :=
  let t := (pyLower text).data
  if anyWord t foodWords then "Food"
  else if anyWord t transportWords then "Transport"
  else if anyWord t shoppingWords then "Shopping"
  else if anyWord t billsWords then "Bills"
  else if anyWord t entertainmentWords then "Entertainment"
  else "Other"

/-- Embedding of `classify_category` (nlp.py lines 151-165): empty text is
"Other"; an available model's prediction wins unless it raises (`none`),
in which case — as after an absent model — the keyword fallback runs. -/
def classify_category (model : Option (String → Option String)) (text : String) : String :=
  if text = "" then "Other"
  else
    match model with
    | some predict =>
      match predict text with
      | some c => c
      | none => keywordClassify text
    | none => keywordClassify text

/-- Proleptic Gregorian calendar year of a day number (days since
1970-01-01), by the standard civil-from-days computation; this is the
`.year` of the modelled datetimes. -/
def yearOfDay (z : Int) : Int :=
  let z2 := z + 719468
  let era := Int.fdiv z2 146097
  let doe := z2 - era * 146097
  let yoe := Int.fdiv (doe - Int.fdiv doe 1460 + Int.fdiv doe 36524 - Int.fdiv doe 146096) 365
  let y := yoe + era * 400
  let doy := doe - (365 * yoe + Int.fdiv yoe 4 - Int.fdiv yoe 100)
  let mp := Int.fdiv (5 * doy + 2) 153
  let m := if mp < 10 then mp + 3 else mp - 9
  if m ≤ 2 then y + 1 else y

/-- Exactly `n` digits taken from the front of `l`, with the rest. -/
def takeDigits : ℕ → List Char → Option (List Char × List Char)
  | 0, l => some ([], l)
  | _ + 1, [] => none
  | n + 1, c :: t =>
    if c.isDigit then (takeDigits n t).map (fun p => (c :: p.1, p.2)) else none

/-- A date separator of the numeric date regex: `/` or `-`. -/
def isSep (c : Char) : Bool := c == '/' || c == '-'

/-- The optional year group of the date regex (a slash-or-dash separator class then 2 to 4 digits, all optional): a greedy
attempt at a separator followed by 4, 3 or 2 digits, else empty. -/
def matchYearOpt (l : List Char) : List Char :=
  match l with
  | [] => []
  | s :: rest =>
    if isSep s then
      match takeDigits 4 rest with
      | some (ds, _) => s :: ds
      | none =>
        match takeDigits 3 rest with
        | some (ds, _) => s :: ds
        | none =>
          match takeDigits 2 rest with
          | some (ds, _) => s :: ds
          | none => []
    else []

/-- The day group `\d{1,2}` (greedy, `n = 2` then `n = 1`) followed by the
rest of the date regex after the first separator. -/
def matchDateD2 (n : ℕ) (l : List Char) : Option (List Char) :=
  match takeDigits n l with
  | none => none
  | some (d2, r2) => some (d2 ++ matchYearOpt r2)

/-- One backtracking alternative of the date regex with the first group of width `n`. -/
def matchDateD1 (n : ℕ) (l : List Char) : Option (List Char) :=
  match takeDigits n l with
  | none => none
  | some (d1, r1) =>
    match r1 with
    | [] => none
    | s :: r2 =>
      if isSep s then
        match matchDateD2 2 r2 with
        | some m => some (d1 ++ s :: m)
        | none =>
          match matchDateD2 1 r2 with
          | some m => some (d1 ++ s :: m)
          | none => none
      else none

/-- Matching of the full numeric date pattern (day, separator, day, optional separator-and-year) anchored at the head
of `l`, with the regex engine's greedy backtracking order. -/
def matchDateAt (l : List Char) : Option (List Char) :=
  match matchDateD1 2 l with
  | some m => some m
  | none => matchDateD1 1 l

/-- Embedding of `re.search` for the numeric date pattern: leftmost match. -/
def searchDate : List Char → Option (List Char)
  | [] => none
  | c :: rest =>
    match matchDateAt (c :: rest) with
    | some m => some m
    | none => searchDate rest

/-- The loop over spaCy DATE entities in `extract_date`: a parse exception
(`none` from the oracle) aborts the whole `try` block (`Except.error`), a
parsed date is accepted only if its year lies in `[2000, today.year + 1]`,
otherwise the loop continues. -/
def scanDateEnts (du : String → Int → Option Int) (today : Int) :
    List (EntLabel × String) → Except Unit (Option Int)
  | [] => Except.ok none
  | (lab, txt) :: rest =>
    if lab = EntLabel.date then
      match du txt today with
      | none => Except.error ()
      | some parsed =>
        if 2000 ≤ yearOfDay parsed ∧ yearOfDay parsed ≤ yearOfDay today + 1 then
          Except.ok (some parsed)
        else scanDateEnts du today rest
    else scanDateEnts du today rest

/-- Embedding of `extract_date` (nlp.py lines 111-136): literal keywords on
the lower-cased stripped text first, then the spaCy DATE entities, then the
numeric date regex fallback, each parse year-validated; any parser
exception is caught and yields `None`. -/
def extract_date (env : Env) (text : String) : Option Int :=
  let txt := pyStrip (pyLower text).data
  let today := env.now
  if containsSub "yesterday".data txt then some (today - 1)
  else if containsSub "today".data txt then some today
  else if containsSub "last week".data txt then some (today - 7)
  else
    match (match env.spacy with
           | some ents => scanDateEnts env.dateutil today (ents text)
           | none => Except.ok none) with
    | Except.error _ => none
    | Except.ok (some d) => some d
    | Except.ok none =>
      match searchDate txt with
      | none => none
      | some m =>
        match env.dateutil (String.mk m) today with
        | none => none
        | some parsed =>
          if 2000 ≤ yearOfDay parsed ∧ yearOfDay parsed ≤ yearOfDay today + 1 then
            some parsed
          else none

/-- The loop over spaCy ORG and PERSON entities in `extract_merchant`. -/
def scanOrgEnts : List (EntLabel × String) → Option String
  | [] => none
  | (lab, txt) :: rest =>
    if lab = EntLabel.org ∨ lab = EntLabel.person then some (String.mk (pyStrip txt.data))
    else scanOrgEnts rest

/-- Word characters of the regex class `\w` (ASCII). -/
def isWordChar (c : Char) : Bool := c.isAlphanum || c == '_'

/-- The character class `[A-Z]`. -/
def isUpperAZ (c : Char) : Bool := 65 ≤ c.toNat && c.toNat ≤ 90

/-- The character class `[\w\s'-]` of the merchant regex. -/
def isMerchChar (c : Char) : Bool :=
  isWordChar c || isSpaceChar c || c == Char.ofNat 39 || c == '-'

/-- One alternative `kw` of `(at|from|in)` matched at the head of `l`,
followed by `\s+([A-Z][\w\s'-]+)`; returns the captured group 2. -/
def matchMerchKw (kw : String) (l : List Char) : Option (List Char) :=
  if leadsWith kw.data l then
    let r1 := l.drop kw.data.length
    let sp := r1.takeWhile isSpaceChar
    if sp.isEmpty then none
    else
      match r1.drop sp.length with
      | [] => none
      | c :: r2 =>
        if isUpperAZ c then
          let body := r2.takeWhile isMerchChar
          if body.isEmpty then none else some (c :: body)
        else none
  else none

/-- The three alternatives of the merchant regex at one position, in the
pattern's order. -/
def matchMerchAt (l : List Char) : Option (List Char) :=
  match matchMerchKw "at" l with
  | some g => some g
  | none =>
    match matchMerchKw "from" l with
    | some g => some g
    | none => matchMerchKw "in" l

/-- Embedding of `re.search(r"\b(at|from|in)\s+([A-Z][\w\s'-]+)", text)`:
scan left to right, attempting a match only at word boundaries (the
previous character is not a word character). -/
def searchMerch (prevWord : Bool) : List Char → Option (List Char)
  | [] => none
  | c :: rest =>
    match (if prevWord then none else matchMerchAt (c :: rest)) with
    | some g => some g
    | none => searchMerch (isWordChar c) rest

/-- Embedding of `extract_merchant` (nlp.py lines 138-149): the first ORG
or PERSON spaCy entity wins (trimmed); otherwise the capitalized phrase
after "at"/"from"/"in", trimmed. -/
def extract_merchant (spacy : Option (String → List (EntLabel × String)))
    (text : String) : Option String :=
  if text = "" then none
  else
    match (match spacy with
           | some ents => scanOrgEnts (ents text)
           | none => none) with
    | some m => some m
    | none =>
      match searchMerch false text.data with
      | some g2 => some (String.mk (pyStrip g2))
      | none => none

/-- The structured expense assembled by `parse_expense_from_text`. -/
structure ParsedExpense where
  amount : ℚ
  category : String
  date : Int
  merchant : Option String
deriving DecidableEq

/-- Embedding of `parse_expense_from_text` (nlp.py lines 75-85): a missing
amount means "not an expense" and short-circuits the pipeline; otherwise
the category, the date (defaulting to now) and the merchant are attached. -/
def parse_expense_from_text (env : Env) (text : String) : Option ParsedExpense :=
  match extract_amount env.spacy text with
  | none => none
  | some amount =>
    some { amount := amount
           category := classify_category env.categoryModel text
           date := (extract_date env text).getD env.now
           merchant := extract_merchant env.spacy text }

/-!
Embedding of `detect_anomaly` (nlp.py lines 168-189).  The function is
taken after the database read, as the spec's
`isAnomalous(history, newAmount)`.  Numpy's default percentile method is
linear interpolation on the sorted sample; `np.std` is the population
standard deviation.  Since the standard deviation is an irrational square
root, the Z-score condition `std > 0 and abs((amount - mean) / std) > 3`
is embedded by its exact square: `0 < variance` and
`(amount - mean)^2 > 9 * variance`.
-/

/-- Sorted insertion of one element (used to model numpy's sort: the value
sequence of a sorted sample is algorithm-independent). -/
def insertSorted (x : ℚ) : List ℚ → List ℚ
  | [] => [x]
  | y :: t => if x ≤ y then x :: y :: t else y :: insertSorted x t

/-- Full sort of a sample. -/
def sortList : List ℚ → List ℚ
  | [] => []
  | x :: t => insertSorted x (sortList t)

/-- Population mean `np.mean`. -/
def listMean (l : List ℚ) : ℚ := l.sum / l.length

/-- Population variance, the square of `np.std`. -/
def popVariance (l : List ℚ) : ℚ :=
  ((l.map (fun x => (x - listMean l) ^ 2)).sum) / l.length

/-- Embedding of `np.percentile(arr, p)` with the default linear
interpolation: index `p * (n - 1) / 100` into the sorted sample,
interpolating between the two neighbouring order statistics. -/
def percentileLinear (l : List ℚ) (p : ℚ) : ℚ :=
  let s := sortList l
  let idx := p * ((s.length : ℚ) - 1) / 100
  let lo := (Rat.floor idx).toNat
  let frac := idx - ((Rat.floor idx : ℤ) : ℚ)
  let xlo := s.getD lo 0
  let xhi := s.getD (lo + 1) xlo
  xlo + frac * (xhi - xlo)

/-- Embedding of `detect_anomaly`: fewer than 5 points is never anomalous;
then the Z-score test (in squared form), then the IQR test with upper
bound `q3 + 1.5 * (q3 - q1)`. -/
def detect_anomaly (amounts : List ℚ) (amount : ℚ) : Bool :=
  if amounts.length < 5 then false
  else
    if 0 < popVariance amounts ∧
        9 * popVariance amounts < (amount - listMean amounts) ^ 2 then true
    else
      if percentileLinear amounts 75 +
          3 / 2 * (percentileLinear amounts 75 - percentileLinear amounts 25) < amount
      then true
      else false

/-- Specification-side Z-score test: the population standard deviation is
positive and the amount lies more than three standard deviations from the
mean, stated in squared form. -/
def zScoreTest (l : List ℚ) (a : ℚ) : Prop :=
  0 < popVariance l ∧ 9 * popVariance l < (a - listMean l) ^ 2

/-- Specification-side IQR test: the amount exceeds
`p75 + 1.5 * (p75 - p25)`. -/
def iqrTest (l : List ℚ) (a : ℚ) : Prop :=
  percentileLinear l 75 + 3 / 2 * (percentileLinear l 75 - percentileLinear l 25) < a

instance (l : List ℚ) (a : ℚ) : Decidable (zScoreTest l a) := by
  unfold zScoreTest; infer_instance

instance (l : List ℚ) (a : ℚ) : Decidable (iqrTest l a) := by
  unfold iqrTest; infer_instance

/-!
Embedding of `forecast_expenses` (crud.py lines 228-278).  Expense rows are
taken after the database read as (year-month, amount) pairs: the grouping
key `dt.strftime("%Y-%m")` of a row is its year-month pair, and the
string sort over `"%Y-%m"` keys is the lexicographic year-month order.
A first-of-month timestamp is representable in nanosecond `pd.Timestamp`
exactly for keys from 1677-10 to 2262-04 (the bounds being 1677-09-21 and
2262-04-11).  The source calls `pd.to_datetime(keys, format="%Y-%m",
errors="coerce")`: with `errors="coerce"` pandas never raises
`OutOfBoundsDatetime` — an out-of-bounds key is coerced to the missing
timestamp `NaT` — so the `except OutOfBoundsDatetime` handler at
crud.py:254-255 is unreachable and the `"Invalid date range"` result is
never produced.  `Series.dropna()` filters by value, not index, so the
`NaT`-indexed months survive (the amounts are never NaN), and
`sort_index()` places `NaT` entries last.  A `NaT` last index makes the
forecast labelling `(ts.index[-1] + DateOffset).strftime(...)` raise a
`ValueError` inside the outer `try`, surfaced through the generic
`except Exception` as an `"error"` field.  The ARIMA fitter is an oracle
(`Except.error` models a fitting exception, caught by the source); the
ordinary-least-squares trend fallback is embedded concretely.
-/

/-- A year-month key, the grouping key `dt.strftime` produces. -/
abbrev YM := Int × Nat

/-- Lexicographic order on year-month keys, the string order of the
`"%Y-%m"` keys. -/
def ymLE (a b : YM) : Bool := a.1 < b.1 || (a.1 == b.1 && a.2 ≤ b.2)

/-- One `monthly[key] += amt` step of the grouping loop over a
`defaultdict(float)`. -/
def addMonth (m : List (YM × ℚ)) (k : YM) (v : ℚ) : List (YM × ℚ) :=
  match alookup m k with
  | some cur => setKey m k (cur + v)
  | none => m ++ [(k, v)]

/-- The grouping loop of `forecast_expenses`. -/
def groupMonths (rows : List (YM × ℚ)) : List (YM × ℚ) :=
  rows.foldl (fun m r => addMonth m r.1 r.2) []

/-- Sorted insertion by key. -/
def insertByKey (p : YM × ℚ) : List (YM × ℚ) → List (YM × ℚ)
  | [] => [p]
  | q :: t => if ymLE p.1 q.1 then p :: q :: t else q :: insertByKey p t

/-- Embedding of `sorted(monthly.items(), key=lambda x: x[0])`. -/
def sortMonths : List (YM × ℚ) → List (YM × ℚ)
  | [] => []
  | p :: t => insertByKey p (sortMonths t)

/-- The sorted monthly series (`monthly_series`, equally the `history`
list) built by `forecast_expenses` from the expense rows. -/
def monthlySeries (rows : List (YM × ℚ)) : List (YM × ℚ) :=
  sortMonths (groupMonths rows)

/-- Representability of a first-of-month timestamp within the pandas
nanosecond `Timestamp` bounds. -/
def inBoundsYM (k : YM) : Bool := ymLE (1677, 10) k && ymLE k (2262, 4)

/-- Advancing a year-month key by `i` months
(`ts.index[-1] + pd.DateOffset(months=i)`). -/
def ymAddMonths (k : YM) (i : ℕ) : YM :=
  let t : Int := k.1 * 12 + ((k.2 : Int) - 1) + i
  (Int.fdiv t 12, (Int.emod t 12).toNat + 1)

/-- The result dictionary of `forecast_expenses`: the `history` list, the
`forecast` list, and the optional `"error"` entry. -/
structure ForecastResult where
  history : List (YM × ℚ)
  forecast : List (YM × ℚ)
  error : Option String
deriving DecidableEq

/-- Embedding of the scikit-learn `LinearRegression` trend fallback:
ordinary least squares of amount against the sequential month index
`0, 1, ...`, extrapolated `steps` months forward. -/
def linregForecast (ys : List ℚ) (steps : ℕ) : List ℚ :=
  let n := ys.length
  let xbar := (((List.range n).map (fun i => (i : ℚ))).sum) / n
  let ybar := ys.sum / n
  let sxy := (((List.range n).zip ys).map (fun p => ((p.1 : ℚ) - xbar) * (p.2 - ybar))).sum
  let sxx := ((List.range n).map (fun i => ((i : ℚ) - xbar) ^ 2)).sum
  let slope := sxy / sxx
  let intercept := ybar - slope * xbar
  (List.range steps).map (fun i => intercept + slope * ((n + i : ℕ) : ℚ))

/-- Labelling of the point forecasts with months advanced from the last
observed month. -/
def labelPreds (lastKey : YM) (preds : List ℚ) : List (YM × ℚ) :=
  preds.enum.map (fun p => (ymAddMonths lastKey (p.1 + 1), p.2))

/-- The indexed series `ts` after
`pd.Series(values, index=pd.to_datetime(keys, errors="coerce")).dropna().sort_index()`:
an out-of-bounds key is coerced to `NaT` (`none`), `dropna` is a no-op
because it filters by the amount values (never NaN), and `sort_index`
keeps the in-bounds months in key order (the series is already key-sorted
and key order is chronological order) with the `NaT` entries last, in
their original relative order. -/
def tsOf (series : List (YM × ℚ)) : List (Option YM × ℚ) :=
  (series.filter (fun p => inBoundsYM p.1)).map (fun p => ((some p.1 : Option YM), p.2)) ++
  (series.filter (fun p => !inBoundsYM p.1)).map (fun p => ((none : Option YM), p.2))

/-- The labelling loop `future_date = (ts.index[-1] + DateOffset(months=i+1)).strftime(...)`
over the point forecasts: a `NaT` last index raises a `ValueError` from
`strftime` on the first iteration (so only when there is at least one
prediction to label), caught by the source's outer `except Exception`. -/
def labelPredsE (lastIdx : Option YM) (preds : List ℚ) :
    Except String (List (YM × ℚ)) :=
  match lastIdx with
  | some k => Except.ok (labelPreds k preds)
  | none =>
    if preds.isEmpty then Except.ok []
    else Except.error "NaTType does not support strftime"

/-- Embedding of `forecast_expenses`, parameterized by the ARIMA fitting
oracle: no rows gives the empty result; the out-of-bounds keys are coerced
to `NaT` and kept (see `tsOf` — the source's `except OutOfBoundsDatetime`
branch is dead code under the `errors="coerce"` contract); at least
6 points fit the ARIMA(1,1,1) oracle; 2 to 5 points use the linear trend;
in both branches the fitting exception and the `NaT`-labelling
`ValueError` are caught into the `"error"` field; a single point produces
no forecast and no error. -/
def forecast_expenses (arima : List ℚ → ℕ → Except String (List ℚ))
    (rows : List (YM × ℚ)) (monthsAhead : ℕ) : ForecastResult :=
  if rows = [] then ⟨[], [], none⟩
  else
    let series := monthlySeries rows
    if series = [] then ⟨series, [], none⟩
    else
      let ts := tsOf series
      let vals := ts.map Prod.snd
      let lastIdx := (ts.getLast?.getD ((none : Option YM), 0)).1
      if 6 ≤ ts.length then
        match arima vals monthsAhead with
        | Except.error e => ⟨series, [], some e⟩
        | Except.ok preds =>
          match labelPredsE lastIdx preds with
          | Except.error e => ⟨series, [], some e⟩
          | Except.ok fc => ⟨series, fc, none⟩
      else if 2 ≤ ts.length then
        match labelPredsE lastIdx (linregForecast vals monthsAhead) with
        | Except.error e => ⟨series, [], some e⟩
        | Except.ok fc => ⟨series, fc, none⟩
      else ⟨series, [], none⟩

/-- A concrete ARIMA oracle whose fit always raises, standing in for an
unavailable statsmodels fitter in concrete evaluations. -/
def arimaUnavail : List ℚ → ℕ → Except String (List ℚ) :=
  fun _ _ => Except.error "model unavailable"

/-- A concrete environment with no spaCy model, no category model, an
always-raising dateutil parser, and day 0 as the current time. -/
def env0 : Env := ⟨none, none, fun _ _ => none, 0⟩

theorem ratFloor_eq_floor (q : ℚ) : (Rat.floor q : ℤ) = ⌊q⌋ := by
  rw [Rat.floor_def, Rat.floor_def']

theorem round2_eq_round (q : ℚ) : round2 q = ((round (q * 100) : ℤ) : ℚ) / 100 := by
  rw [round2, ratFloor_eq_floor, round_eq]

theorem round2_mono {a b : ℚ} (h : a ≤ b) : round2 a ≤ round2 b := by
  rw [round2, round2, ratFloor_eq_floor, ratFloor_eq_floor]
  have hf : ⌊a * 100 + 1 / 2⌋ ≤ ⌊b * 100 + 1 / 2⌋ := by
    apply Int.floor_le_floor
    nlinarith
  have : ((⌊a * 100 + 1 / 2⌋ : ℤ) : ℚ) ≤ ((⌊b * 100 + 1 / 2⌋ : ℤ) : ℚ) := by
    exact_mod_cast hf
  linarith

theorem round2_le (q : ℚ) : round2 q ≤ q + 1 / 200 := by
  rw [round2, ratFloor_eq_floor]
  have hf : ((⌊q * 100 + 1 / 2⌋ : ℤ) : ℚ) ≤ q * 100 + 1 / 2 := Int.floor_le _
  linarith

theorem le_round2 (q : ℚ) : q - 1 / 200 ≤ round2 q := by
  rw [round2, ratFloor_eq_floor]
  have hf : q * 100 + 1 / 2 - 1 < ((⌊q * 100 + 1 / 2⌋ : ℤ) : ℚ) := Int.sub_one_lt_floor _
  linarith

theorem round2_intCast_div (k : ℤ) : round2 ((k : ℚ) / 100) = (k : ℚ) / 100 := by
  rw [round2, ratFloor_eq_floor]
  have h1 : (k : ℚ) / 100 * 100 + 1 / 2 = ((k : ℤ) : ℚ) + 1 / 2 := by ring
  rw [h1, add_comm, Int.floor_add_int]
  have h2 : ⌊(1 : ℚ) / 2⌋ = 0 := by norm_num
  rw [h2]
  norm_num

theorem round2_round2 (q : ℚ) : round2 (round2 q) = round2 q := by
  rw [round2]
  exact round2_intCast_div _

theorem round2_zero : round2 0 = 0 := by
  have h := round2_intCast_div 0
  simpa using h

theorem round2_nonneg {q : ℚ} (h : 0 ≤ q) : 0 ≤ round2 q := by
  have := round2_mono h
  rwa [round2_zero] at this

theorem alookup_append_left {α : Type} [DecidableEq α] {m : List (α × ℚ)} {k : α}
    (h : alookup m k = none) (l : List (α × ℚ)) : alookup (m ++ l) k = alookup l k := by
  induction m with
  | nil => simp
  | cons p t ih =>
    by_cases hpk : p.1 = k
    · simp [alookup, hpk] at h
    · simp only [alookup, hpk, if_false, List.cons_append] at h ⊢
      exact ih h

theorem alookup_map_replace_self {α : Type} [DecidableEq α] {m : List (α × ℚ)} {k : α}
    (h : (alookup m k).isSome) (v : ℚ) :
    alookup (m.map (fun p => if p.1 = k then (k, v) else p)) k = some v := by
  induction m with
  | nil => simp [alookup] at h
  | cons p t ih =>
    by_cases hpk : p.1 = k
    · simp [alookup, hpk]
    · simp only [alookup, hpk, if_false] at h
      simp only [List.map_cons, if_neg hpk, alookup, hpk, if_false]
      exact ih h

theorem alookup_map_replace_other {α : Type} [DecidableEq α] (m : List (α × ℚ)) {k k' : α}
    (h : k' ≠ k) (v : ℚ) :
    alookup (m.map (fun p => if p.1 = k then (k, v) else p)) k' = alookup m k' := by
  induction m with
  | nil => simp [alookup]
  | cons p t ih =>
    by_cases hpk : p.1 = k
    · have hkk' : ¬ (k = k') := fun hh => h hh.symm
      have hpk' : ¬ (p.1 = k') := by rw [hpk]; exact hkk'
      simp only [List.map_cons, if_pos hpk, alookup, if_neg hkk', if_neg hpk']
      exact ih
    · simp only [List.map_cons, if_neg hpk, alookup]
      by_cases hpk' : p.1 = k'
      · rw [if_pos hpk', if_pos hpk']
      · rw [if_neg hpk', if_neg hpk']
        exact ih

theorem alookup_append_single_other {α : Type} [DecidableEq α] (m : List (α × ℚ)) {k k' : α}
    (h : k' ≠ k) (v : ℚ) : alookup (m ++ [(k, v)]) k' = alookup m k' := by
  induction m with
  | nil => simp [alookup, show ¬ (k = k') from fun hh => h hh.symm]
  | cons p t ih =>
    simp only [List.cons_append, alookup]
    by_cases hpk : p.1 = k'
    · rw [if_pos hpk, if_pos hpk]
    · rw [if_neg hpk, if_neg hpk]
      exact ih

theorem alookup_setKey_self {α : Type} [DecidableEq α] (m : List (α × ℚ)) (k : α) (v : ℚ) :
    alookup (setKey m k v) k = some v := by
  rw [setKey]
  by_cases h : (alookup m k).isSome
  · rw [if_pos h]
    exact alookup_map_replace_self h v
  · rw [if_neg h]
    have hn : alookup m k = none := by
      cases hc : alookup m k with
      | none => rfl
      | some x => rw [hc] at h; simp at h
    rw [alookup_append_left hn]
    simp [alookup]

theorem alookup_setKey_other {α : Type} [DecidableEq α] (m : List (α × ℚ)) {k k' : α}
    (h : k' ≠ k) (v : ℚ) : alookup (setKey m k v) k' = alookup m k' := by
  rw [setKey]
  by_cases hs : (alookup m k).isSome
  · rw [if_pos hs]
    exact alookup_map_replace_other m h v
  · rw [if_neg hs]
    exact alookup_append_single_other m h v

theorem alookup_eq_some_of_mem {α : Type} [DecidableEq α] {m : List (α × ℚ)} {k : α} {v : ℚ}
    (hnd : (keysOf m).Nodup) (hmem : (k, v) ∈ m) : alookup m k = some v := by
  induction m with
  | nil => simp at hmem
  | cons p t ih =>
    simp only [keysOf, List.map_cons, List.nodup_cons] at hnd
    rcases List.mem_cons.mp hmem with hh | hh
    · rw [← hh]
      simp [alookup]
    · have hpk : p.1 ≠ k := by
        intro he
        exact hnd.1 (he ▸ (List.mem_map.mpr ⟨(k, v), hh, rfl⟩))
      simp only [alookup, hpk, if_false]
      exact ih hnd.2 hh

theorem mem_of_alookup_eq_some {α : Type} [DecidableEq α] {m : List (α × ℚ)} {k : α} {v : ℚ}
    (h : alookup m k = some v) : (k, v) ∈ m := by
  induction m with
  | nil => simp [alookup] at h
  | cons p t ih =>
    by_cases hpk : p.1 = k
    · simp only [alookup, hpk, if_pos] at h
      have hp : p = (k, v) := by
        have h2 : p.2 = v := Option.some.inj h
        cases p
        simp_all
      rw [hp]
      exact List.mem_cons_self _ _
    · simp only [alookup, hpk, if_false] at h
      exact List.mem_cons_of_mem _ (ih h)

theorem mem_keysOf_of_alookup {α : Type} [DecidableEq α] {m : List (α × ℚ)} {k : α} {v : ℚ}
    (h : alookup m k = some v) : k ∈ keysOf m :=
  List.mem_map.mpr ⟨(k, v), mem_of_alookup_eq_some h, rfl⟩

theorem alookup_isSome_of_mem_keys {α : Type} [DecidableEq α] {m : List (α × ℚ)} {k : α}
    (h : k ∈ keysOf m) : (alookup m k).isSome := by
  induction m with
  | nil => simp [keysOf] at h
  | cons p t ih =>
    by_cases hpk : p.1 = k
    · simp [alookup, hpk]
    · simp only [keysOf, List.map_cons, List.mem_cons] at h
      rcases h with hh | hh
      · exact absurd hh.symm hpk
      · simp only [alookup, hpk, if_false]
        exact ih hh

theorem alookup_none_of_not_mem_keys {α : Type} [DecidableEq α] {m : List (α × ℚ)} {k : α}
    (h : k ∉ keysOf m) : alookup m k = none := by
  cases hc : alookup m k with
  | none => rfl
  | some v => exact absurd (mem_keysOf_of_alookup hc) h

theorem applyAdjust_alookup_of_not_mem (g : ℚ → ℚ → ℚ) {c : String}
    {L : List (String × ℚ)} (h : c ∉ keysOf L) (sug : List (String × ℚ)) :
    alookup (applyAdjust g sug L) c = alookup sug c := by
  induction L generalizing sug with
  | nil => rfl
  | cons p t ih =>
    simp only [keysOf, List.map_cons, List.mem_cons, not_or] at h
    simp only [applyAdjust, List.foldl_cons]
    rw [show t.foldl (fun acc q => setKey acc q.1 (g (aget acc q.1) q.2))
          (setKey sug p.1 (g (aget sug p.1) p.2))
        = applyAdjust g (setKey sug p.1 (g (aget sug p.1) p.2)) t from rfl]
    rw [ih (by simpa [keysOf] using h.2)]
    exact alookup_setKey_other _ (fun hh => h.1 hh) _

theorem applyAdjust_alookup_of_mem (g : ℚ → ℚ → ℚ) {c : String} {a : ℚ}
    {L : List (String × ℚ)} (hnd : (keysOf L).Nodup) (hmem : (c, a) ∈ L)
    (sug : List (String × ℚ)) :
    alookup (applyAdjust g sug L) c = some (g (aget sug c) a) := by
  induction L generalizing sug with
  | nil => simp at hmem
  | cons p t ih =>
    simp only [keysOf, List.map_cons, List.nodup_cons] at hnd
    simp only [applyAdjust, List.foldl_cons]
    rw [show t.foldl (fun acc q => setKey acc q.1 (g (aget acc q.1) q.2))
          (setKey sug p.1 (g (aget sug p.1) p.2))
        = applyAdjust g (setKey sug p.1 (g (aget sug p.1) p.2)) t from rfl]
    rcases List.mem_cons.mp hmem with hh | hh
    · have hpc : p.1 = c := by rw [← hh]
      have hnt : c ∉ keysOf t := by rw [← hpc]; simpa [keysOf] using hnd.1
      rw [applyAdjust_alookup_of_not_mem g hnt]
      rw [hpc]
      have hval : g (aget sug p.1) p.2 = g (aget sug c) a := by rw [hpc, ← hh]
      rw [← hpc, hval, ← hpc]
      exact alookup_setKey_self _ _ _
    · have hct : c ∈ keysOf t := List.mem_map.mpr ⟨(c, a), hh, rfl⟩
      have hpc : p.1 ≠ c := fun he => (he ▸ hnd.1) (by simpa [keysOf] using hct)
      rw [ih hnd.2 hh]
      have : aget (setKey sug p.1 (g (aget sug p.1) p.2)) c = aget sug c := by
        rw [aget, alookup_setKey_other _ (fun hh2 => hpc hh2.symm), aget]
      rw [this]

theorem mem_entryFilterMap {f : String × ℚ → Option ℚ} {b : List (String × ℚ)}
    {c : String} {v : ℚ} :
    (c, v) ∈ b.filterMap (fun p => (f p).map (fun w => (p.1, w))) ↔
      ∃ limit, (c, limit) ∈ b ∧ f (c, limit) = some v := by
  rw [List.mem_filterMap]
  constructor
  · rintro ⟨⟨pc, pl⟩, hp, hf⟩
    rcases Option.map_eq_some'.mp hf with ⟨w, hw, he⟩
    injection he with h1 h2
    subst h1
    subst h2
    exact ⟨pl, hp, hw⟩
  · rintro ⟨limit, hmem, hf⟩
    exact ⟨(c, limit), hmem, by simp [hf]⟩

theorem keysOf_entryFilterMap_sublist (f : String × ℚ → Option ℚ) (b : List (String × ℚ)) :
    (keysOf (b.filterMap (fun p => (f p).map (fun w => (p.1, w))))).Sublist (keysOf b) := by
  induction b with
  | nil => simp [keysOf]
  | cons p t ih =>
    cases hf : f p with
    | none => simpa [keysOf, List.filterMap_cons, hf] using ih.cons p.1
    | some w => simpa [keysOf, List.filterMap_cons, hf] using ih.cons₂ p.1

theorem alookup_val_unique {m : List (String × ℚ)} {k : String} {x y : ℚ}
    (hnd : (keysOf m).Nodup) (h1 : (k, x) ∈ m) (h2 : (k, y) ∈ m) : x = y := by
  have e1 := alookup_eq_some_of_mem hnd h1
  have e2 := alookup_eq_some_of_mem hnd h2
  rw [e1] at e2
  exact Option.some.inj e2

theorem exists_val_of_mem_keysOf {α : Type} {m : List (α × ℚ)} {k : α}
    (h : k ∈ keysOf m) : ∃ v, (k, v) ∈ m := by
  rcases List.mem_map.mp h with ⟨p, hp, he⟩
  refine ⟨p.2, ?_⟩
  cases p
  simp_all

theorem mem_oversOf {b t : List (String × ℚ)} {c : String} {v : ℚ} :
    (c, v) ∈ oversOf b t ↔
      ∃ limit, (c, limit) ∈ b ∧ oversEntry limit (aget t c) = some v := by
  unfold oversOf
  exact mem_entryFilterMap

theorem mem_surplusOf {pct : ℚ} {b t : List (String × ℚ)} {c : String} {a : ℚ} :
    (c, a) ∈ surplusOf pct b t ↔
      ∃ limit, (c, limit) ∈ b ∧ surplusEntry pct limit (aget t c) = some a := by
  unfold surplusOf
  exact mem_entryFilterMap

theorem keysOf_oversOf_nodup {b t : List (String × ℚ)} (hnd : (keysOf b).Nodup) :
    (keysOf (oversOf b t)).Nodup :=
  (keysOf_entryFilterMap_sublist _ b).nodup hnd

theorem keysOf_surplusOf_nodup {pct : ℚ} {b t : List (String × ℚ)}
    (hnd : (keysOf b).Nodup) : (keysOf (surplusOf pct b t)).Nodup :=
  (keysOf_entryFilterMap_sublist _ b).nodup hnd

theorem oversEntry_some_lt {limit spent v : ℚ} (h : oversEntry limit spent = some v) :
    limit < spent ∧ v = round2 (spent - limit) := by
  unfold oversEntry at h
  by_cases hc : limit < spent
  · rw [if_pos hc] at h
    exact ⟨hc, (Option.some.inj h).symm⟩
  · rw [if_neg hc] at h
    exact absurd h (by simp)

theorem surplusEntry_some_char {pct limit spent a : ℚ}
    (h : surplusEntry pct limit spent = some a) :
    ¬ limit < spent ∧ a = round2 (min (max 0 (limit - spent)) (round2 (limit * pct))) ∧ 0 < a := by
  unfold surplusEntry at h
  by_cases hc : limit < spent
  · rw [if_pos hc] at h
    exact absurd h (by simp)
  · rw [if_neg hc] at h
    simp only at h
    by_cases hp : 0 < round2 (min (max 0 (limit - spent)) (round2 (limit * pct)))
    · rw [if_pos hp] at h
      exact ⟨hc, (Option.some.inj h).symm, (Option.some.inj h) ▸ hp⟩
    · rw [if_neg hp] at h
      exact absurd h (by simp)

theorem not_mem_overs_keys_of_surplus {pct : ℚ} {b t : List (String × ℚ)} {c : String} {a : ℚ}
    (hnd : (keysOf b).Nodup) (hs : (c, a) ∈ surplusOf pct b t) :
    c ∉ keysOf (oversOf b t) := by
  intro hk
  rcases exists_val_of_mem_keysOf hk with ⟨v, hv⟩
  rcases mem_oversOf.mp hv with ⟨l1, hl1, he1⟩
  rcases mem_surplusOf.mp hs with ⟨l2, hl2, he2⟩
  have hll : l1 = l2 := alookup_val_unique hnd hl1 hl2
  have h1 := (oversEntry_some_lt he1).1
  have h2 := (surplusEntry_some_char he2).1
  rw [hll] at h1
  exact h2 h1

theorem not_mem_surplus_keys_of_overs {pct : ℚ} {b t : List (String × ℚ)} {c : String} {v : ℚ}
    (hnd : (keysOf b).Nodup) (ho : (c, v) ∈ oversOf b t) :
    c ∉ keysOf (surplusOf pct b t) := by
  intro hk
  rcases exists_val_of_mem_keysOf hk with ⟨a, ha⟩
  exact not_mem_overs_keys_of_surplus hnd ha (List.mem_map.mpr ⟨(c, v), ho, rfl⟩)

theorem suggestedOf_alookup_surplus {pct : ℚ} {b t : List (String × ℚ)} {c : String}
    {a limit : ℚ} (hnd : (keysOf b).Nodup)
    (ha : alookup (surplusOf pct b t) c = some a) (hl : alookup b c = some limit) :
    alookup (suggestedOf pct b t) c =
      some (round2 (limit -
        round2 (a * min 1 (sumVals (surplusOf pct b t) / sumVals (oversOf b t))))) := by
  have hmem := mem_of_alookup_eq_some ha
  have hndS := @keysOf_surplusOf_nodup pct b t hnd
  have hnotO := not_mem_overs_keys_of_surplus hnd hmem
  simp only [suggestedOf]
  rw [applyAdjust_alookup_of_not_mem _ hnotO, applyAdjust_alookup_of_mem _ hndS hmem]
  rw [aget, hl, Option.getD_some]

theorem suggestedOf_alookup_overs {pct : ℚ} {b t : List (String × ℚ)} {c : String}
    {v limit : ℚ} (hnd : (keysOf b).Nodup)
    (hv : alookup (oversOf b t) c = some v) (hl : alookup b c = some limit) :
    alookup (suggestedOf pct b t) c =
      some (round2 (limit +
        round2 (v * min 1 (sumVals (surplusOf pct b t) / sumVals (oversOf b t))))) := by
  have hmem := mem_of_alookup_eq_some hv
  have hndO := @keysOf_oversOf_nodup b t hnd
  have hnotS := @not_mem_surplus_keys_of_overs pct b t c v hnd hmem
  simp only [suggestedOf]
  rw [applyAdjust_alookup_of_mem _ hndO hmem]
  have hinner : aget (applyAdjust
      (fun cur avail => round2 (cur -
        round2 (avail * min 1 (sumVals (surplusOf pct b t) / sumVals (oversOf b t)))))
      b (surplusOf pct b t)) c = limit := by
    rw [aget, applyAdjust_alookup_of_not_mem _ hnotS, hl, Option.getD_some]
  rw [hinner]

/-- C2: in the redistribution branch of budget optimization (total
overspend and total surplus both positive), the result is the
redistribution dictionary whose ratio is `min(1, totalSurplus /
totalOverspend)`; every surplus category's suggested limit is its original
limit minus the 2-decimal-rounded `availableSurplus * ratio` (the
resulting limit again rounded to 2 decimals, as all monetary outputs are),
and every overspent category's suggested limit is its original limit plus
the 2-decimal-rounded `overspend * ratio` (likewise re-rounded). -/
theorem claim_C2_redistribution (budgets totals : List (String × ℚ)) (pct : ℚ)
    (hnd : (keysOf budgets).Nodup)
    (hO : 0 < sumVals (oversOf budgets totals))
    (hS : 0 < sumVals (surplusOf pct budgets totals)) :
    optimize_budgets budgets totals pct =
      OptimizeResult.redistribute budgets totals (oversOf budgets totals)
        (surplusOf pct budgets totals) (suggestedOf pct budgets totals)
    ∧ (∀ c a limit, alookup (surplusOf pct budgets totals) c = some a →
        alookup budgets c = some limit →
        alookup (suggestedOf pct budgets totals) c =
          some (round2 (limit - round2 (a *
            min 1 (sumVals (surplusOf pct budgets totals) / sumVals (oversOf budgets totals))))))
    ∧ (∀ c v limit, alookup (oversOf budgets totals) c = some v →
        alookup budgets c = some limit →
        alookup (suggestedOf pct budgets totals) c =
          some (round2 (limit + round2 (v *
            min 1 (sumVals (surplusOf pct budgets totals) / sumVals (oversOf budgets totals)))))) := by
  refine ⟨?_, fun c a limit ha hl => suggestedOf_alookup_surplus hnd ha hl,
    fun c v limit hv hl => suggestedOf_alookup_overs hnd hv hl⟩
  have hne : budgets ≠ [] := by
    intro he
    rw [he] at hO
    simp [oversOf, sumVals] at hO
  have h1 : ¬ (sumVals (oversOf budgets totals) = 0) :=
    fun he => absurd (he ▸ hO) (lt_irrefl 0)
  have h2 : ¬ (sumVals (surplusOf pct budgets totals) = 0) :=
    fun he => absurd (he ▸ hS) (lt_irrefl 0)
  simp only [optimize_budgets, if_neg hne, if_neg h1, if_neg h2]

/-- Witness for C2 on concrete data: budgets Food 100 and Fun 50,
spending Food 150 and Fun 10, reduction cap 0.3; Fun has available
surplus 15, Food overspends by 50, and Fun's suggested limit is its limit
minus the rounded reduction. -/
theorem claim_C2_witness :
    alookup (suggestedOf (3/10) [("Food", 100), ("Fun", 50)] [("Food", 150), ("Fun", 10)]) "Fun" =
      some (round2 (50 - round2 (15 *
        min 1 (sumVals (surplusOf (3/10) [("Food", 100), ("Fun", 50)] [("Food", 150), ("Fun", 10)]) /
          sumVals (oversOf [("Food", 100), ("Fun", 50)] [("Food", 150), ("Fun", 10)]))))) :=
  (claim_C2_redistribution [("Food", 100), ("Fun", 50)] [("Food", 150), ("Fun", 10)] (3/10)
    (by decide)
    (by
      have h : sumVals (oversOf [("Food", 100), ("Fun", 50)] [("Food", 150), ("Fun", 10)]) = 50 := by
        with_unfolding_all rfl
      rw [h]; norm_num)
    (by
      have h : sumVals (surplusOf (3/10) [("Food", 100), ("Fun", 50)] [("Food", 150), ("Fun", 10)]) = 15 := by
        with_unfolding_all rfl
      rw [h]; norm_num)).2.1 "Fun" 15 50 (by with_unfolding_all rfl) (by with_unfolding_all rfl)

/-- C8: budget optimization never mutates its inputs: in the pure
embedding the caller's maps are values, and in every non-empty-budgets
branch the reported `original_budgets` and `current_spending` are, entry
for entry, exactly the input maps — the suggested limits live only in the
separate `suggested_budgets` copy. -/
theorem claim_C8_no_input_mutation (budgets totals : List (String × ℚ)) (pct : ℚ)
    (h : budgets ≠ []) :
    (optimize_budgets budgets totals pct).origBudgets = some budgets ∧
    (optimize_budgets budgets totals pct).curSpending = some totals := by
  simp only [optimize_budgets, if_neg h]
  by_cases h1 : sumVals (oversOf budgets totals) = 0
  · simp [h1, OptimizeResult.origBudgets, OptimizeResult.curSpending]
  · by_cases h2 : sumVals (surplusOf pct budgets totals) = 0
    · simp [h1, h2, OptimizeResult.origBudgets, OptimizeResult.curSpending]
    · simp [h1, h2, OptimizeResult.origBudgets, OptimizeResult.curSpending]

/-- Witness for C8 on concrete data. -/
theorem claim_C8_witness :
    (optimize_budgets [("Food", 100)] [("Food", 150)] (3/10)).origBudgets =
      some [("Food", 100)] ∧
    (optimize_budgets [("Food", 100)] [("Food", 150)] (3/10)).curSpending =
      some [("Food", 150)] :=
  claim_C8_no_input_mutation [("Food", 100)] [("Food", 150)] (3/10) (by simp)

/-- C10: in the redistribution branch, with non-negative limits and
spending and a reduction cap in [0, 1], the rounded reduction applied to a
surplus category never exceeds `round2 (min (limit - spent) (limit * pct))`,
so up to one cent of rounding error the suggested limit never falls below
the category's current spend nor below `limit * (1 - pct)`. -/
theorem claim_C10_surplus_reduction_bounds (budgets totals : List (String × ℚ)) (pct : ℚ)
    (c : String) (limit a : ℚ)
    (hnd : (keysOf budgets).Nodup)
    (_hpct0 : 0 ≤ pct) (_hpct1 : pct ≤ 1)
    (_hb0 : ∀ p ∈ budgets, 0 ≤ p.2) (_ht0 : ∀ p ∈ totals, 0 ≤ p.2)
    (hl : alookup budgets c = some limit)
    (ha : alookup (surplusOf pct budgets totals) c = some a)
    (hO : 0 < sumVals (oversOf budgets totals))
    (hS : 0 < sumVals (surplusOf pct budgets totals)) :
    round2 (a * min 1 (sumVals (surplusOf pct budgets totals) / sumVals (oversOf budgets totals)))
        ≤ round2 (min (limit - aget totals c) (limit * pct))
    ∧ aget totals c - 1 / 100 ≤ aget (suggestedOf pct budgets totals) c
    ∧ limit * (1 - pct) - 1 / 100 ≤ aget (suggestedOf pct budgets totals) c := by
  set spent := aget totals c with hspentdef
  set ratio := min 1 (sumVals (surplusOf pct budgets totals) / sumVals (oversOf budgets totals))
    with hratiodef
  rcases mem_surplusOf.mp (mem_of_alookup_eq_some ha) with ⟨l2, hl2, he2⟩
  have hll : l2 = limit := by
    have hx := alookup_eq_some_of_mem hnd hl2
    rw [hl] at hx
    exact (Option.some.inj hx).symm
  rw [hll] at he2
  rcases surplusEntry_some_char he2 with ⟨hnlt, hav, hapos⟩
  have hspent_le : spent ≤ limit := not_lt.mp hnlt
  have hmax : max 0 (limit - spent) = limit - spent := max_eq_right (by linarith)
  rw [hmax] at hav
  have hr1 : ratio ≤ 1 := min_le_left _ _
  have hr0 : 0 ≤ ratio := le_min (by norm_num) (le_of_lt (div_pos hS hO))
  have hfix : round2 a = a := by rw [hav, round2_round2]
  have ha0 : 0 ≤ a := le_of_lt hapos
  have hred_le_a : round2 (a * ratio) ≤ a := by
    have hle : a * ratio ≤ a := by nlinarith
    calc round2 (a * ratio) ≤ round2 a := round2_mono hle
      _ = a := hfix
  have hM : a ≤ round2 (min (limit - spent) (limit * pct)) := by
    rcases le_or_lt (round2 (limit * pct)) (limit * pct) with hmr | hmr
    · have hmin : min (limit - spent) (round2 (limit * pct)) ≤ min (limit - spent) (limit * pct) :=
        min_le_min (le_refl _) hmr
      rw [hav]
      exact round2_mono hmin
    · rcases le_or_lt (limit - spent) (limit * pct) with hle | hgt
      · have hx1 : min (limit - spent) (round2 (limit * pct)) = limit - spent :=
          min_eq_left (le_of_lt (lt_of_le_of_lt hle hmr))
        have hx2 : min (limit - spent) (limit * pct) = limit - spent := min_eq_left hle
        rw [hav, hx1, hx2]
      · have hx2 : min (limit - spent) (limit * pct) = limit * pct := min_eq_right (le_of_lt hgt)
        rw [hav, hx2]
        calc round2 (min (limit - spent) (round2 (limit * pct)))
            ≤ round2 (round2 (limit * pct)) := round2_mono (min_le_right _ _)
          _ = round2 (limit * pct) := round2_round2 _
  refine ⟨le_trans hred_le_a hM, ?_, ?_⟩
  all_goals
    have hsug := suggestedOf_alookup_surplus hnd ha hl
    have hsugval : aget (suggestedOf pct budgets totals) c = round2 (limit - round2 (a * ratio)) := by
      rw [aget, hsug, Option.getD_some]
    rw [hsugval]
  · have h2a : a ≤ (limit - spent) + 1 / 200 := by
      rw [hav]
      calc round2 (min (limit - spent) (round2 (limit * pct)))
          ≤ round2 (limit - spent) := round2_mono (min_le_left _ _)
        _ ≤ (limit - spent) + 1 / 200 := round2_le _
    have hlow := le_round2 (limit - round2 (a * ratio))
    linarith
  · have h3a : a ≤ limit * pct + 1 / 200 := by
      rw [hav]
      calc round2 (min (limit - spent) (round2 (limit * pct)))
          ≤ round2 (round2 (limit * pct)) := round2_mono (min_le_right _ _)
        _ = round2 (limit * pct) := round2_round2 _
        _ ≤ limit * pct + 1 / 200 := round2_le _
    have hlow := le_round2 (limit - round2 (a * ratio))
    have hexp : limit * (1 - pct) = limit - limit * pct := by ring
    linarith

/-- Witness for C10 on the concrete redistribution instance: Fun spends 10
of its 50 limit, and its suggested limit stays above the spend minus one
cent. -/
theorem claim_C10_witness :
    aget [("Food", (150 : ℚ)), ("Fun", 10)] "Fun" - 1 / 100 ≤
      aget (suggestedOf (3/10) [("Food", 100), ("Fun", 50)] [("Food", 150), ("Fun", 10)]) "Fun" :=
  (claim_C10_surplus_reduction_bounds [("Food", 100), ("Fun", 50)] [("Food", 150), ("Fun", 10)]
    (3/10) "Fun" 50 15
    (by decide) (by norm_num) (by norm_num) (by norm_num) (by norm_num)
    (by with_unfolding_all rfl) (by with_unfolding_all rfl)
    (by
      have h : sumVals (oversOf [("Food", 100), ("Fun", 50)] [("Food", 150), ("Fun", 10)]) = 50 := by
        with_unfolding_all rfl
      rw [h]; norm_num)
    (by
      have h : sumVals (surplusOf (3/10) [("Food", 100), ("Fun", 50)] [("Food", 150), ("Fun", 10)]) = 15 := by
        with_unfolding_all rfl
      rw [h]; norm_num)).2.1

theorem sum_const_of_all_eq {l : List ℚ} {c : ℚ} (h : ∀ x ∈ l, x = c) :
    l.sum = l.length * c := by
  induction l with
  | nil => simp
  | cons x t ih =>
    have hx : x = c := h x (List.mem_cons_self _ _)
    have ht : t.sum = t.length * c := ih (fun y hy => h y (List.mem_cons_of_mem _ hy))
    simp [hx, ht]
    ring

theorem listMean_const {l : List ℚ} {c : ℚ} (hne : l ≠ []) (h : ∀ x ∈ l, x = c) :
    listMean l = c := by
  have hlen : (l.length : ℚ) ≠ 0 := by
    simp only [ne_eq, Nat.cast_eq_zero, List.length_eq_zero]
    exact hne
  rw [listMean, sum_const_of_all_eq h, mul_comm, mul_div_assoc, div_self hlen, mul_one]

theorem popVariance_const {l : List ℚ} {c : ℚ} (hne : l ≠ []) (h : ∀ x ∈ l, x = c) :
    popVariance l = 0 := by
  have hmap : (l.map (fun x => (x - listMean l) ^ 2)).sum = 0 := by
    have hz : ∀ y ∈ l.map (fun x => (x - listMean l) ^ 2), y = 0 := by
      intro y hy
      rcases List.mem_map.mp hy with ⟨x, hx, he⟩
      rw [← he, h x hx, listMean_const hne h]
      ring
    rw [sum_const_of_all_eq hz, mul_zero]
  rw [popVariance, hmap, zero_div]

theorem mem_insertSorted {x y : ℚ} {t : List ℚ} :
    x ∈ insertSorted y t ↔ x = y ∨ x ∈ t := by
  induction t with
  | nil => simp [insertSorted]
  | cons z s ih =>
    by_cases hc : y ≤ z
    · simp [insertSorted, hc]
    · simp only [insertSorted, if_neg hc, List.mem_cons, ih]
      tauto

theorem length_insertSorted (y : ℚ) (t : List ℚ) :
    (insertSorted y t).length = t.length + 1 := by
  induction t with
  | nil => rfl
  | cons z s ih =>
    by_cases hc : y ≤ z
    · simp [insertSorted, hc]
    · simp [insertSorted, hc, ih]

theorem mem_sortList {x : ℚ} {l : List ℚ} (h : x ∈ sortList l) : x ∈ l := by
  induction l with
  | nil => simp [sortList] at h
  | cons y t ih =>
    rcases mem_insertSorted.mp h with hh | hh
    · simp [hh]
    · exact List.mem_cons_of_mem _ (ih hh)

theorem length_sortList (l : List ℚ) : (sortList l).length = l.length := by
  induction l with
  | nil => rfl
  | cons y t ih => simp [sortList, length_insertSorted, ih]

theorem getD_of_all_eq {s : List ℚ} {c : ℚ} (h : ∀ x ∈ s, x = c) {i : ℕ}
    (hi : i < s.length) (d : ℚ) : s.getD i d = c := by
  rw [List.getD_eq_getElem?_getD, List.getElem?_eq_getElem hi]
  exact h _ (List.getElem_mem hi)

theorem getD_of_ge_length {s : List ℚ} {i : ℕ} (hi : s.length ≤ i) (d : ℚ) :
    s.getD i d = d := by
  rw [List.getD_eq_getElem?_getD, List.getElem?_eq_none hi]
  rfl

theorem percentileLinear_const {l : List ℚ} {c : ℚ} (hne : l ≠ []) (h : ∀ x ∈ l, x = c)
    {p : ℚ} (_hp0 : 0 ≤ p) (hp1 : p ≤ 100) : percentileLinear l p = c := by
  have hs : ∀ x ∈ sortList l, x = c := fun x hx => h x (mem_sortList hx)
  have hn1 : 1 ≤ (sortList l).length := by
    rw [length_sortList]
    rcases l with _ | ⟨y, t⟩
    · exact absurd rfl hne
    · simp
  have hidx : p * (((sortList l).length : ℚ) - 1) / 100 ≤ ((sortList l).length : ℚ) - 1 := by
    have hnn : (0 : ℚ) ≤ ((sortList l).length : ℚ) - 1 := by
      have : (1 : ℚ) ≤ ((sortList l).length : ℚ) := by exact_mod_cast hn1
      linarith
    rw [div_le_iff₀ (by norm_num : (0:ℚ) < 100)]
    nlinarith
  have hfla : (Rat.floor (p * (((sortList l).length : ℚ) - 1) / 100) : ℤ) ≤
      ((sortList l).length : ℤ) - 1 := by
    rw [ratFloor_eq_floor]
    have : (((sortList l).length : ℤ) : ℚ) - 1 = ((((sortList l).length : ℤ) - 1 : ℤ) : ℚ) := by
      push_cast
      ring
    calc ⌊p * (((sortList l).length : ℚ) - 1) / 100⌋
        ≤ ⌊((((sortList l).length : ℤ) - 1 : ℤ) : ℚ)⌋ := by
          apply Int.floor_le_floor
          rw [← this]
          exact_mod_cast hidx
      _ = ((sortList l).length : ℤ) - 1 := Int.floor_intCast _
  have hlo : (Rat.floor (p * (((sortList l).length : ℚ) - 1) / 100)).toNat <
      (sortList l).length := by
    have h1 : (Rat.floor (p * (((sortList l).length : ℚ) - 1) / 100)).toNat ≤
        ((sortList l).length : ℤ).toNat - 1 := by
      rcases le_or_lt (Rat.floor (p * (((sortList l).length : ℚ) - 1) / 100)) 0 with hle | hlt
      · omega
      · omega
    omega
  simp only [percentileLinear]
  rw [getD_of_all_eq hs hlo]
  rcases lt_or_le ((Rat.floor (p * (((sortList l).length : ℚ) - 1) / 100)).toNat + 1)
      (sortList l).length with hh | hh
  · rw [getD_of_all_eq hs hh]
    ring
  · rw [getD_of_ge_length hh]
    ring

/-- C1: `isAnomalous` returns false on histories of fewer than 5 points,
and otherwise returns true exactly when the Z-score test fires (positive
population variance and squared deviation above nine variances, the
squared form of `std > 0` and the absolute Z-score exceeding 3) or the IQR
test fires (amount above `p75 + 1.5 * (p75 - p25)` with
linearly-interpolated percentiles) — the logical OR of the two tests. -/
theorem claim_C1_anomaly_or_of_tests (l : List ℚ) (a : ℚ) :
    (l.length < 5 → detect_anomaly l a = false) ∧
    (5 ≤ l.length → (detect_anomaly l a = true ↔ zScoreTest l a ∨ iqrTest l a)) := by
  constructor
  · intro h
    simp [detect_anomaly, h]
  · intro h
    have hlt : ¬ l.length < 5 := not_lt.mpr h
    simp only [detect_anomaly, if_neg hlt]
    by_cases hz : 0 < popVariance l ∧ 9 * popVariance l < (a - listMean l) ^ 2
    · rw [if_pos hz]
      exact ⟨fun _ => Or.inl hz, fun _ => rfl⟩
    · rw [if_neg hz]
      by_cases hi : percentileLinear l 75 +
          3 / 2 * (percentileLinear l 75 - percentileLinear l 25) < a
      · rw [if_pos hi]
        exact ⟨fun _ => Or.inr hi, fun _ => rfl⟩
      · rw [if_neg hi]
        refine ⟨fun hfalse => absurd hfalse (by simp), fun hor => ?_⟩
        rcases hor with hh | hh
        · exact absurd hh hz
        · exact absurd hh hi

/-- Witness for C1 at a concrete history of five equal points and an
amount that fires the IQR test only. -/
theorem claim_C1_witness :
    detect_anomaly [1, 1, 1, 1, 1] 5 = true ↔
      zScoreTest [1, 1, 1, 1, 1] 5 ∨ iqrTest [1, 1, 1, 1, 1] 5 :=
  (claim_C1_anomaly_or_of_tests [1, 1, 1, 1, 1] 5).2 (by norm_num)

/-- C7: on a constant history of length at least 5 the variance and the
IQR are both zero, so `isAnomalous` is true exactly when the amount
strictly exceeds the constant value, which is the maximum of the
history. -/
theorem claim_C7_constant_history (l : List ℚ) (c a : ℚ)
    (hlen : 5 ≤ l.length) (hconst : ∀ x ∈ l, x = c) :
    (detect_anomaly l a = true ↔ c < a) ∧ c ∈ l ∧ ∀ x ∈ l, x ≤ c := by
  have hne : l ≠ [] := by
    intro he
    rw [he] at hlen
    simp at hlen
  have hmemc : c ∈ l := by
    rcases l with _ | ⟨y, t⟩
    · exact absurd rfl hne
    · have : y = c := hconst y (List.mem_cons_self _ _)
      rw [← this]
      exact List.mem_cons_self _ _
  refine ⟨?_, hmemc, fun x hx => le_of_eq (hconst x hx)⟩
  have hvar : popVariance l = 0 := popVariance_const hne hconst
  have hq25 : percentileLinear l 25 = c := percentileLinear_const hne hconst (by norm_num) (by norm_num)
  have hq75 : percentileLinear l 75 = c := percentileLinear_const hne hconst (by norm_num) (by norm_num)
  have hlt : ¬ l.length < 5 := not_lt.mpr hlen
  simp only [detect_anomaly, if_neg hlt, hvar, hq25, hq75]
  rw [if_neg (by simp)]
  have hupper : c + 3 / 2 * (c - c) = c := by ring
  rw [hupper]
  by_cases hca : c < a
  · rw [if_pos hca]
    simp [hca]
  · rw [if_neg hca]
    simp [hca]

/-- Witness for C7 at the constant history of five twos and amount 3. -/
theorem claim_C7_witness : detect_anomaly (List.replicate 5 (2 : ℚ)) 3 = true :=
  (claim_C7_constant_history (List.replicate 5 (2 : ℚ)) 2 3 (by simp)
    (fun x hx => List.eq_of_mem_replicate hx)).1.mpr (by norm_num)

/-- C3: the expense-extraction pipeline returns null exactly when no
monetary amount can be extracted — a null amount short-circuits before
category, date or merchant extraction — and the empty string extracts to
null. -/
theorem claim_C3_null_iff_no_amount (env : Env) (text : String) :
    ((parse_expense_from_text env text = none) ↔ extract_amount env.spacy text = none) ∧
    parse_expense_from_text env "" = none := by
  constructor
  · cases hc : extract_amount env.spacy text with
    | none => simp [parse_expense_from_text, hc]
    | some v => simp [parse_expense_from_text, hc]
  · simp [parse_expense_from_text, extract_amount]

theorem classify_none_eq_keyword (text : String) :
    classify_category none text = keywordClassify text := by
  by_cases he : text = ""
  · subst he
    have h : keywordClassify "" = "Other" := by with_unfolding_all rfl
    simp [classify_category, h]
  · simp [classify_category, he]

theorem keywordClassify_mem (text : String) :
    keywordClassify text ∈
      ["Food", "Transport", "Shopping", "Bills", "Entertainment", "Other"] := by
  simp only [keywordClassify]
  split_ifs <;> simp

/-- C6: the classifier is total and, without a model, applies the keyword
groups in the fixed order Food, Transport, Shopping, Bills,
Entertainment to the lower-cased text, first match winning, with "Other"
for the empty string and when no keyword matches; in particular a text
matching both a Food and a Transport keyword classifies as Food. -/
theorem claim_C6_keyword_order (model : Option (String → Option String)) (text : String) :
    classify_category model "" = "Other"
    ∧ (anyWord (pyLower text).data foodWords = true →
        classify_category none text = "Food")
    ∧ (anyWord (pyLower text).data foodWords = false →
       anyWord (pyLower text).data transportWords = true →
        classify_category none text = "Transport")
    ∧ (anyWord (pyLower text).data foodWords = false →
       anyWord (pyLower text).data transportWords = false →
       anyWord (pyLower text).data shoppingWords = true →
        classify_category none text = "Shopping")
    ∧ (anyWord (pyLower text).data foodWords = false →
       anyWord (pyLower text).data transportWords = false →
       anyWord (pyLower text).data shoppingWords = false →
       anyWord (pyLower text).data billsWords = true →
        classify_category none text = "Bills")
    ∧ (anyWord (pyLower text).data foodWords = false →
       anyWord (pyLower text).data transportWords = false →
       anyWord (pyLower text).data shoppingWords = false →
       anyWord (pyLower text).data billsWords = false →
       anyWord (pyLower text).data entertainmentWords = true →
        classify_category none text = "Entertainment")
    ∧ (anyWord (pyLower text).data foodWords = false →
       anyWord (pyLower text).data transportWords = false →
       anyWord (pyLower text).data shoppingWords = false →
       anyWord (pyLower text).data billsWords = false →
       anyWord (pyLower text).data entertainmentWords = false →
        classify_category none text = "Other")
    ∧ classify_category none text ∈
        ["Food", "Transport", "Shopping", "Bills", "Entertainment", "Other"] := by
  refine ⟨by simp [classify_category], ?_, ?_, ?_, ?_, ?_, ?_, ?_⟩
  · intro h1
    rw [classify_none_eq_keyword]
    simp [keywordClassify, h1]
  · intro h1 h2
    rw [classify_none_eq_keyword]
    simp [keywordClassify, h1, h2]
  · intro h1 h2 h3
    rw [classify_none_eq_keyword]
    simp [keywordClassify, h1, h2, h3]
  · intro h1 h2 h3 h4
    rw [classify_none_eq_keyword]
    simp [keywordClassify, h1, h2, h3, h4]
  · intro h1 h2 h3 h4 h5
    rw [classify_none_eq_keyword]
    simp [keywordClassify, h1, h2, h3, h4, h5]
  · intro h1 h2 h3 h4 h5
    rw [classify_none_eq_keyword]
    simp [keywordClassify, h1, h2, h3, h4, h5]
  · rw [classify_none_eq_keyword]
    exact keywordClassify_mem text

/-- Witness for C6: a text containing both the Food keyword "food" and the
Transport keyword "bus" classifies as Food. -/
theorem claim_C6_witness : classify_category none "food by bus" = "Food" :=
  (claim_C6_keyword_order none "food by bus").2.1 (by with_unfolding_all rfl)

theorem scanDateEnts_ok_some_year {du : String → Int → Option Int} {today d : Int} :
    ∀ {ents : List (EntLabel × String)},
      scanDateEnts du today ents = Except.ok (some d) →
      2000 ≤ yearOfDay d ∧ yearOfDay d ≤ yearOfDay today + 1 := by
  intro ents
  induction ents with
  | nil =>
    intro h
    simp [scanDateEnts] at h
  | cons p rest ih =>
    intro h
    rcases p with ⟨lab, txt⟩
    by_cases hl : lab = EntLabel.date
    · simp only [scanDateEnts, if_pos hl] at h
      split at h
      · simp at h
      · split at h
        · rename_i hy
          injection h with h1
          have hpd := Option.some.inj h1
          rw [← hpd]
          exact hy
        · exact ih h
    · simp only [scanDateEnts, if_neg hl] at h
      exact ih h

/-- C9: date extraction checks the literal keywords on the lower-cased
stripped text before any model- or regex-based parsing — "yesterday"
yields now minus 1 day, then "today" yields now, then "last week" yields
now minus 7 days — every date produced by the model or regex paths has
its year in [2000, currentYear + 1], and when nothing validates the
extractor returns null and the pipeline defaults the expense date to
now. -/
theorem claim_C9_date_keywords_and_year_range (env : Env) (text : String) :
    (containsSub "yesterday".data (pyStrip (pyLower text).data) = true →
      extract_date env text = some (env.now - 1))
    ∧ (containsSub "yesterday".data (pyStrip (pyLower text).data) = false →
       containsSub "today".data (pyStrip (pyLower text).data) = true →
      extract_date env text = some env.now)
    ∧ (containsSub "yesterday".data (pyStrip (pyLower text).data) = false →
       containsSub "today".data (pyStrip (pyLower text).data) = false →
       containsSub "last week".data (pyStrip (pyLower text).data) = true →
      extract_date env text = some (env.now - 7))
    ∧ (∀ d : Int, containsSub "yesterday".data (pyStrip (pyLower text).data) = false →
       containsSub "today".data (pyStrip (pyLower text).data) = false →
       containsSub "last week".data (pyStrip (pyLower text).data) = false →
       extract_date env text = some d →
       2000 ≤ yearOfDay d ∧ yearOfDay d ≤ yearOfDay env.now + 1)
    ∧ (∀ amt : ℚ, extract_date env text = none →
       extract_amount env.spacy text = some amt →
       ∃ pe, parse_expense_from_text env text = some pe ∧ pe.date = env.now) := by
  refine ⟨?_, ?_, ?_, ?_, ?_⟩
  · intro h1
    simp [extract_date, h1]
  · intro h1 h2
    simp [extract_date, h1, h2]
  · intro h1 h2 h3
    simp [extract_date, h1, h2, h3]
  · intro d h1 h2 h3 hres
    simp only [extract_date, h1, h2, h3, Bool.false_eq_true, if_false] at hres
    split at hres
    · simp at hres
    · rename_i x hscan
      have hxd := Option.some.inj hres
      rw [← hxd]
      split at hscan
      · exact scanDateEnts_ok_some_year hscan
      · simp at hscan
    · split at hres
      · simp at hres
      · split at hres
        · simp at hres
        · split at hres
          · rename_i hy
            have hpd := Option.some.inj hres
            rw [← hpd]
            exact hy
          · simp at hres
  · intro amt hdate hamt
    refine ⟨⟨amt, classify_category env.categoryModel text,
      (extract_date env text).getD env.now, extract_merchant env.spacy text⟩, ?_, ?_⟩
    · simp [parse_expense_from_text, hamt]
    · simp [hdate]

/-- Witness for C9: with no model available, a text containing
"yesterday" extracts to day now minus 1. -/
theorem claim_C9_witness : extract_date env0 "lunch yesterday" = some (env0.now - 1) :=
  (claim_C9_date_keywords_and_year_range env0 "lunch yesterday").1 (by with_unfolding_all rfl)

theorem length_filter_partition {α : Type} (P : α → Bool) (s : List α) :
    (s.filter P).length + (s.filter (fun x => !P x)).length = s.length := by
  induction s with
  | nil => rfl
  | cons x t ih =>
    by_cases hb : P x
    · simp [List.filter_cons, hb]
      omega
    · simp [List.filter_cons, hb]
      omega

theorem tsOf_length (s : List (YM × ℚ)) : (tsOf s).length = s.length := by
  simp only [tsOf, List.length_append, List.length_map]
  exact length_filter_partition (fun p => inBoundsYM p.1) s

/-- C4 (refuted on the code): the claimed "Invalid date range" indicator is
never produced, because `errors="coerce"` turns an out-of-bounds key into
`NaT` instead of raising `OutOfBoundsDatetime`, leaving the source's
handler at crud.py:254-255 dead; at the claim's own scenario — a series
whose single month key lies outside the representable range — the code
returns the full history with an empty forecast and no error indicator at
all. -/
theorem claim_C4_no_range_error_emitted :
    forecast_expenses arimaUnavail [(((3000 : Int), (1 : ℕ)), (100 : ℚ))] 3 =
      ⟨[(((3000 : Int), (1 : ℕ)), (100 : ℚ))], [], none⟩ := by
  with_unfolding_all rfl

/-- C5: forecasting an empty series returns empty history and forecast
with no error for every monthsAhead, and forecasting a series with
exactly one month returns that one-entry history, an empty forecast and
no error — even for an out-of-range key, since the coerced `NaT` month is
kept by `dropna` and a single point reaches no fitting branch. -/
theorem claim_C5_empty_and_single_month (arima : List ℚ → ℕ → Except String (List ℚ)) :
    (∀ n : ℕ, forecast_expenses arima [] n = ⟨[], [], none⟩)
    ∧ (∀ (rows : List (YM × ℚ)) (n : ℕ), rows ≠ [] →
        (monthlySeries rows).length = 1 →
        forecast_expenses arima rows n = ⟨monthlySeries rows, [], none⟩) := by
  constructor
  · intro n
    simp [forecast_expenses]
  · intro rows n hne hlen
    have hsne : monthlySeries rows ≠ [] := by
      intro he
      rw [he] at hlen
      simp at hlen
    have hts : (tsOf (monthlySeries rows)).length = 1 := by
      rw [tsOf_length, hlen]
    simp only [forecast_expenses, if_neg hne, if_neg hsne]
    rw [if_neg (by rw [hts]; omega), if_neg (by rw [hts]; omega)]

/-- Witness for C5 at a one-row series in 2024-05. -/
theorem claim_C5_witness :
    forecast_expenses arimaUnavail [(((2024 : Int), (5 : ℕ)), (100 : ℚ))] 3 =
      ⟨monthlySeries [(((2024 : Int), (5 : ℕ)), (100 : ℚ))], [], none⟩ :=
  (claim_C5_empty_and_single_month arimaUnavail).2 _ 3 (by simp)
    (by with_unfolding_all rfl)
